import Mathlib

/-!
Verification of the LoRa T9 messenger firmware (`src/main.cpp`).

The development shallowly embeds the parts of the firmware that the
specification's testable properties talk about:

* the AES/hex codec `encryptMessage` / `decryptMessage` (PKCS7 padding,
  ECB blocks, uppercase-hex transport encoding), parameterised by the
  16-byte block cipher, with machine-integer widths (`uint8_t` lengths)
  modelled as `Nat` reduced `% 256`;
* the T9 multi-tap tables `T9_MAP` / `getT9Char` and the per-screen key
  handler `processLoRaKey` acting on the module-level mutable state;
* the radio-link reader body (`loraTask`, one received line);
* the battery mapping `voltageToPercent`, whose IEEE float/double
  arithmetic is modelled relationally (`FloatNear`).

Bytes are `Nat` values `< 256`; C strings (`String` in the Arduino API)
are `List Char`; the fallible decoder returns `Except Unit _`, where
`.error ()` stands for the literal `"[ERRO DECRYPT]"` early return.
-/

namespace LoraESP32

/-- The 16 hex digits used by `sprintf "%02X"` (uppercase). -/
def HEX_DIGITS : List Char := ("0123456789ABCDEF").toList

/-- `sprintf(hex, "%02X", b)` for a byte `b < 256`: two uppercase hex digits.
(The argument is a `uint8_t`, so it is always `< 256`; the extra `% 16`
on the high digit only keeps the function total on `Nat`.) -/
def byteToHex (b : Nat) : List Char :=
  [HEX_DIGITS.getD (b / 16 % 16) '0', HEX_DIGITS.getD (b % 16) '0']

/-- Value of one hex digit, as recognised by `strtol(_, NULL, 16)` /
`isxdigit`: `0-9` (codes 48-57), `A-F` (65-70), `a-f` (97-102). -/
def hexVal (c : Char) : Option Nat :=
  let n := c.toNat
  if 48 ≤ n ∧ n ≤ 57 then some (n - 48)
  else if 65 ≤ n ∧ n ≤ 70 then some (n - 55)
  else if 97 ≤ n ∧ n ≤ 102 then some (n - 87)
  else none

/-- `strtol(byteStr.c_str(), NULL, 16)` applied to the ≤2-character
substring `cipherHex.substring(2*i, 2*i+2)`: parse leading hex digits,
stop at the first non-digit, value `0` if none.  (The `strtol` cases for
leading whitespace, signs and a `0x` prefix are never exercised: the one
caller feeds this function hex-classified text.) -/
def strtolHex : List Char → Nat
  | [] => 0
  | [c] => (hexVal c).getD 0
  | c1 :: c2 :: _ =>
    match hexVal c1, hexVal c2 with
    | some a, some b => 16 * a + b
    | some a, none => a
    | none, _ => 0

/-- An abstract 16-byte block cipher, standing for the `AES128` library
object under the fixed compiled-in key (the library is external to the
repository).  Only the properties used by the firmware's contract are
required: a block maps to a block, bytes stay bytes, and decryption
inverts encryption. -/
structure BlockCipher where
  enc : List Nat → List Nat
  dec : List Nat → List Nat
  enc_len : ∀ b : List Nat, b.length = 16 → (enc b).length = 16
  enc_lt : ∀ b : List Nat, b.length = 16 → (∀ x ∈ b, x < 256) → ∀ x ∈ enc b, x < 256
  dec_enc : ∀ b : List Nat, b.length = 16 → (∀ x ∈ b, x < 256) → dec (enc b) = b

/-- The loop `for (i = 0; i < inputLen; i += 16) f(buf + i)`: apply a
block transform to each successive 16-byte chunk and concatenate the
results; `n` is the number of iterations. -/
def mapBlocks (f : List Nat → List Nat) : Nat → List Nat → List Nat
  | 0, _ => []
  | n + 1, input => f (input.take 16) ++ mapBlocks f n (input.drop 16)

/-- `padLen = 16 - (len % 16)` from `encryptMessage` (always in `[1,16]`:
a full extra block is appended when `len % 16 == 0`). -/
def encPadLen (len : Nat) : Nat := 16 - len % 16

/-- `uint8_t inputLen = plaintext.length() + padLen;` — the padded buffer
length, truncated to 8 bits. -/
def encInputLen (len : Nat) : Nat := (len + encPadLen len) % 256

/-- `encryptMessage` (src/main.cpp:220-249): PKCS7-pad the plaintext,
ECB-encrypt each 16-byte block, hex-encode.  The `.take inputLen` models
the `inputLen`-byte heap buffer: when `len + padLen ≥ 256` the `uint8_t`
length wraps and the buffer holds only the first `inputLen` bytes (the
`memcpy`/`memset` then write out of bounds — see `encryptMemSafe`). -/
def encryptMessage (bc : BlockCipher) (plaintext : List Char) : List Char :=
  let len := plaintext.length
  let padLen := encPadLen len
  let inputLen := encInputLen len
  let input := (plaintext.map Char.toNat ++ List.replicate padLen padLen).take inputLen
  let output := mapBlocks bc.enc ((inputLen + 15) / 16) input
  (output.map byteToHex).flatten

/-- Do all writes of `encryptMessage` (the `memcpy` of `len` bytes and the
`memset` of `padLen` bytes) stay inside the `new uint8_t[inputLen]`
allocation? -/
def encryptMemSafe (len : Nat) : Bool :=
  decide (len + encPadLen len ≤ encInputLen len)

/-- `uint8_t cipherLen = cipherHex.length() / 2;` — the un-hexed byte
count, truncated to 8 bits. -/
def decCipherLen (hexLen : Nat) : Nat := hexLen / 2 % 256

/-- `decryptMessage` (src/main.cpp:252-285).  `.error ()` models the
early `return "[ERRO DECRYPT]";` when the hex length is not a multiple
of 32.  `output.getD (cipherLen - 1) 0` models the padding-byte read
`output[cipherLen - 1]`; when `cipherLen = 0` that C index is `-1` and
the read is out of bounds (see `decryptMemSafe`) — the model defaults the
unspecified value to `0`. -/
def decryptMessage (bc : BlockCipher) (cipherHex : List Char) : Except Unit (List Char) :=
  if cipherHex.length % 32 ≠ 0 then .error ()
  else
    let cipherLen := decCipherLen cipherHex.length
    let cipher := (List.range cipherLen).map fun i => strtolHex ((cipherHex.drop (2 * i)).take 2)
    let output := mapBlocks bc.dec ((cipherLen + 15) / 16) cipher
    let padLen0 := output.getD (cipherLen - 1) 0
    let padLen := if padLen0 > 16 then 0 else padLen0
    .ok ((output.take (cipherLen - padLen)).map Char.ofNat)

/-- Are all buffer indices used by `decryptMessage` in range?  After the
`% 32` length check passes, every access is in range except the padding
read `output[cipherLen - 1]`, which needs `cipherLen > 0` (the hex-pair
reads touch indices `< 2 * cipherLen ≤ hexLen`, and the block loops touch
indices `< cipherLen`). -/
def decryptMemSafe (hexLen : Nat) : Bool :=
  decide (hexLen % 32 ≠ 0) || decide (0 < decCipherLen hexLen)

/-- The compiled-in key `AES_KEY` (src/main.cpp:69-72). -/
def AES_KEY : List Nat :=
  [0x01, 0x23, 0x45, 0x67, 0x89, 0xAB, 0xCD, 0xEF,
   0xFE, 0xDC, 0xBA, 0x98, 0x76, 0x54, 0x32, 0x10]

/-- A concrete `BlockCipher` used to instantiate witnesses: XOR each byte
of the block with the corresponding byte of `AES_KEY` (a self-inverse
block transform with the required properties). -/
def xorBlock (b : List Nat) : List Nat :=
  List.zipWith (fun x k => x ^^^ k) b AES_KEY

def xorCipher : BlockCipher where
  enc := xorBlock
  dec := xorBlock
  enc_len := by
    intro b hb
    simp [xorBlock, hb, AES_KEY]
  enc_lt := by
    have general : ∀ (b K : List Nat), (∀ x ∈ b, x < 256) → (∀ k ∈ K, k < 256) →
        ∀ x ∈ List.zipWith (fun x k => x ^^^ k) b K, x < 256 := by
      intro b
      induction b with
      | nil => intro K _ _ x hx; simp at hx
      | cons c cs ih =>
        intro K hb hK x hx
        cases K with
        | nil => simp at hx
        | cons k ks =>
          rw [List.zipWith_cons_cons, List.mem_cons] at hx
          rcases hx with h | h
          · subst h
            have h1 : c < 2 ^ 8 := hb c (List.mem_cons_self _ _)
            have h2 : k < 2 ^ 8 := hK k (List.mem_cons_self _ _)
            exact Nat.xor_lt_two_pow h1 h2
          · exact ih ks (fun y hy => hb y (List.mem_cons_of_mem _ hy))
              (fun y hy => hK y (List.mem_cons_of_mem _ hy)) x h
    intro b _ hlt x hx
    exact general b AES_KEY hlt (by decide) x hx
  dec_enc := by
    have general : ∀ (b K : List Nat), b.length ≤ K.length →
        List.zipWith (fun x k => x ^^^ k)
          (List.zipWith (fun x k => x ^^^ k) b K) K = b := by
      intro b
      induction b with
      | nil => intro K _; simp
      | cons c cs ih =>
        intro K hlen
        cases K with
        | nil => simp at hlen
        | cons k ks =>
          simp only [List.zipWith_cons_cons, Nat.xor_cancel_right]
          rw [ih ks (by simpa using hlen)]
    intro b hb _
    exact general b AES_KEY (by rw [hb]; decide)

instance exceptDecEq {ε α : Type} [DecidableEq ε] [DecidableEq α] : DecidableEq (Except ε α) := fun x y =>
  match x, y with
  | .error a, .error b =>
    match decEq a b with
    | isTrue h => isTrue (by rw [h])
    | isFalse h => isFalse fun hc => h (Except.error.inj hc)
  | .ok a, .ok b =>
    match decEq a b with
    | isTrue h => isTrue (by rw [h])
    | isFalse h => isFalse fun hc => h (Except.ok.inj hc)
  | .error _, .ok _ => isFalse fun hc => Except.noConfusion hc
  | .ok _, .error _ => isFalse fun hc => Except.noConfusion hc

/-- The `AppScreen` enum (src/main.cpp:111-118). -/
inductive AppScreen where
  | menu
  | lora
  | monitor
  | bluetooth
  | battery
  | settings
  deriving DecidableEq

/-- The NUL character `'\0'` terminating a `T9_MAP` row early. -/
def NUL : Char := Char.ofNat 0

/-- The T9 key map `T9_MAP[16][5]` (src/main.cpp:80-97); row order follows
`KEY_INDEX`: keys 1,2,3,A,4,5,6,B,7,8,9,C,*,0,#,D.  Each C initializer
row is a `char[5]` zero-filled past its written glyphs, so each row here
is padded with `'\0'` to five entries. -/
def T9_MAP : List (List Char) :=
  (["1.,!?", "ABC2", "DEF3", "A",
    "GHI4", "JKL5", "MNO6", "B",
    "PQRS7", "TUV8", "WXYZ9", "C",
    "*+-", " 0", "#@", "D"]).map fun row =>
    row.toList ++ List.replicate (5 - row.length) NUL

/-- The glyph-count loop of `getT9Char`: count row entries up to the
first `'\0'`. -/
def countGlyphs : List Char → Nat
  | [] => 0
  | c :: rest => if c = NUL then 0 else 1 + countGlyphs rest

/-- `getT9Char` (src/main.cpp:317-328): the glyph obtained from key
`keyIndex` after `charIndex` repeats, cycling modulo the row's glyph
count. -/
def getT9Char (keyIndex charIndex : Nat) : Char :=
  if keyIndex ≥ 16 then NUL
  else
    let row := T9_MAP.getD keyIndex []
    let maxChars := countGlyphs row
    if maxChars = 0 then NUL
    else row.getD (charIndex % maxChars) NUL

/-- `isSpecialKey` (src/main.cpp:330-333): the four function keys
A=3, B=7, C=11, D=15. -/
def isSpecialKey (keyIndex : Nat) : Bool :=
  keyIndex = 3 ∨ keyIndex = 7 ∨ keyIndex = 11 ∨ keyIndex = 15

/-- `2^32`, the modulus of the `uint32_t` values (`millis()`,
`monitorMsgCount`). -/
def U32 : Nat := 4294967296

/-- Wrapping `uint32_t` subtraction `a - b`, as in
`(now - lastKeyTime) < T9_TIMEOUT`. -/
def u32sub (a b : Nat) : Nat := (a + (U32 - b % U32)) % U32

/-- `T9_TIMEOUT` (src/main.cpp:164). -/
def T9_TIMEOUT : Nat := 1000

/-- The module-level mutable state touched by the key handlers and the
radio/battery tasks: the active screen, the encryption flag, the message
buffer (`messageBuffer`/`messageLen` as one list), the multi-tap session
(`t9CharIndex`, `lastKeyPressed`, `lastKeyTime`), the monitor counter and
the visible logs (each `lv_textarea_add_text` call appends one entry),
plus the lines written to the LoRa UART (`Serial2.println`).  UI-only
mirrors (`ui_lora_input`, status labels) and the Bluetooth-screen state
are not modelled. -/
structure SysState where
  currentScreen : AppScreen
  encryptionEnabled : Bool
  messageBuffer : List Char
  t9CharIndex : Nat
  lastKeyPressed : Nat
  lastKeyTime : Nat
  monitorMsgCount : Nat
  loraLog : List (List Char)
  monitorLog : List (List Char)
  loraSent : List (List Char)
  deriving DecidableEq

/-- `processLoRaKey` (src/main.cpp:702-777): the RadioEntry/LoRa screen
key handler.  `now` is the `millis()` value read in the multi-tap branch.
Callers (`handleKeyPress` ← `scanKeypad`) only pass `keyIndex < 16`. -/
def processLoRaKey (bc : BlockCipher) (keyIndex : Nat) (now : Nat) (s : SysState) : SysState :=
  if keyIndex = 7 then
    -- B - Voltar: clear the buffer and return to the menu
    { s with messageBuffer := [], currentScreen := .menu }
  else if keyIndex = 11 then
    -- C - Enviar
    if s.messageBuffer.length > 0 then
      let msg := s.messageBuffer
      let toSend := if s.encryptionEnabled then encryptMessage bc msg else msg
      { s with
        loraSent := s.loraSent ++ [toSend],
        loraLog := s.loraLog ++ ['>' :: ' ' :: (msg ++ ['\n'])],
        messageBuffer := [] }
    else s
  else if keyIndex = 15 then
    -- D - Apagar: drop the last character, reset the multi-tap session
    { s with
      messageBuffer := s.messageBuffer.dropLast,
      t9CharIndex := 0,
      lastKeyPressed := 255 }
  else if isSpecialKey keyIndex then s
  else
    -- multi-tap T9 entry
    let cycling := keyIndex = s.lastKeyPressed ∧ u32sub now s.lastKeyTime < T9_TIMEOUT
    let newIndex := if cycling then (s.t9CharIndex + 1) % 256 else 0
    let buf1 := if cycling then s.messageBuffer.dropLast else s.messageBuffer
    let c := getT9Char keyIndex newIndex
    let buf2 := if c ≠ NUL ∧ buf1.length < 126 then buf1 ++ [c] else buf1
    { s with
      messageBuffer := buf2,
      t9CharIndex := newIndex,
      lastKeyPressed := keyIndex,
      lastKeyTime := now }

/-- A concrete state on the LoRa entry screen with the startup values of
the mutable globals (`messageBuffer` empty, `lastKeyPressed = 255`,
`t9CharIndex = 0`, encryption on), used to instantiate witnesses. -/
def loraEntryState : SysState :=
  ⟨.lora, true, [], 0, 255, 0, 0, [], [], []⟩

/-- Abbreviation for a state whose message buffer and multi-tap session
fields have been set (all other fields taken from `s`); used to describe
the states reached during a multi-tap sequence. -/
def t9State (s : SysState) (buf : List Char) (idx key time : Nat) : SysState :=
  { s with messageBuffer := buf, t9CharIndex := idx, lastKeyPressed := key, lastKeyTime := time }

/-- C `isxdigit`: `0-9` (codes 48-57), `A-F` (65-70), `a-f` (97-102). -/
def isxdigit (c : Char) : Bool :=
  let n := c.toNat
  (48 ≤ n ∧ n ≤ 57) ∨ (65 ≤ n ∧ n ≤ 70) ∨ (97 ≤ n ∧ n ≤ 102)

/-- The `"[ERRO DECRYPT]"` marker surfaced to the log on a decode format
error. -/
def errDecrypt : List Char := ("[ERRO DECRYPT]").toList

/-- One iteration of the radio-link reader `loraTask`
(src/main.cpp:875-921) in which `incomingMsg` was read from the UART:
classify the line as ciphertext (encryption enabled, length ≥ 32, all
hex digits), decrypt it if so, then append the display text to the LoRa
log and the Monitor log and bump the monitor message counter. -/
def loraTaskStep (bc : BlockCipher) (incomingMsg : List Char) (s : SysState) : SysState :=
  if incomingMsg.length = 0 then s
  else
    let isHex := incomingMsg.all isxdigit
    let displayMsg :=
      if s.encryptionEnabled ∧ 32 ≤ incomingMsg.length ∧ isHex = true then
        match decryptMessage bc incomingMsg with
        | .error _ => errDecrypt
        | .ok m => m
      else incomingMsg
    let logEntry := '<' :: ' ' :: (displayMsg ++ ['\n'])
    { s with
      loraLog := s.loraLog ++ [logEntry],
      monitorMsgCount := (s.monitorMsgCount + 1) % U32,
      monitorLog := s.monitorLog ++ [logEntry] }

/-- `r` is a positive IEEE binary floating-point value with a `t`-bit
significand that a round-to-nearest operation producing a normal result
may return for the exact value `q`: `r = m * 2^e` with a normalised
`t`-bit significand, within half a ULP of `q`.  This is the defining
accuracy contract of IEEE round-to-nearest; every value in
`voltageToPercent`'s computation lies well inside the normal positive
range of `float` (`t = 24`) / `double` (`t = 53`). -/
def FloatNear (t : Nat) (q r : ℚ) : Prop :=
  ∃ m e : ℤ, r = (m : ℚ) * 2 ^ e ∧ (2 : ℤ) ^ (t - 1) ≤ m ∧ m < (2 : ℤ) ^ t ∧
    |r - q| ≤ 2 ^ (e - 1)

/-- `voltageToPercent` (src/main.cpp:345-351), embedded with IEEE
float/double semantics: `voltageToPercent(x)` relates the exact decimal
value `x` passed by a caller to the returned `uint8_t` `r`.  The `float`
argument is the rounding of `x` to 24 bits; the literals `4.2` and `1.2`
are the `double` roundings of those decimals (`3.0` and `100` are exact);
comparisons promote the argument to `double` exactly; each arithmetic
step (`-`, `/`, `*`) rounds its exact result to `double`; the final
`uint8_t` cast truncates toward zero (all reachable values are
positive, so this is `Int.toNat ∘ Int.floor`). -/
def voltageToPercent (x : ℚ) (r : Nat) : Prop :=
  ∃ v c42 c12 : ℚ,
    FloatNear 24 x v ∧ FloatNear 53 (21 / 5) c42 ∧ FloatNear 53 (6 / 5) c12 ∧
    ((c42 ≤ v ∧ r = 100) ∨
     (v < c42 ∧ v ≤ 3 ∧ r = 0) ∨
     (v < c42 ∧ 3 < v ∧ ∃ s q p : ℚ,
        FloatNear 53 (v - 3) s ∧ FloatNear 53 (s / c12) q ∧
        FloatNear 53 (q * 100) p ∧ r = Int.toNat ⌊p⌋))

/-! ## Helper lemmas about the codec -/

lemma mapBlocks_length (f : List Nat → List Nat)
    (hf : ∀ b : List Nat, b.length = 16 → (f b).length = 16) :
    ∀ (n : Nat) (L : List Nat), L.length = 16 * n → (mapBlocks f n L).length = 16 * n := by
  intro n
  induction n with
  | zero => intro L _; simp [mapBlocks]
  | succ n ih =>
    intro L h
    rw [mapBlocks, List.length_append,
      hf _ (by rw [List.length_take]; omega),
      ih (L.drop 16) (by rw [List.length_drop]; omega)]
    omega

lemma mapBlocks_lt (f : List Nat → List Nat)
    (hf : ∀ b : List Nat, b.length = 16 → (∀ x ∈ b, x < 256) → ∀ x ∈ f b, x < 256) :
    ∀ (n : Nat) (L : List Nat), L.length = 16 * n → (∀ x ∈ L, x < 256) →
      ∀ x ∈ mapBlocks f n L, x < 256 := by
  intro n
  induction n with
  | zero => intro L _ _ x hx; simp [mapBlocks] at hx
  | succ n ih =>
    intro L h hlt x hx
    rw [mapBlocks, List.mem_append] at hx
    rcases hx with hx | hx
    · exact hf _ (by rw [List.length_take]; omega)
        (fun y hy => hlt y (List.take_subset _ _ hy)) x hx
    · exact ih (L.drop 16) (by rw [List.length_drop]; omega)
        (fun y hy => hlt y (List.drop_subset _ _ hy)) x hx

lemma mapBlocks_inv (f g : List Nat → List Nat)
    (hf : ∀ b : List Nat, b.length = 16 → (f b).length = 16)
    (hg : ∀ b : List Nat, b.length = 16 → (∀ x ∈ b, x < 256) → g (f b) = b) :
    ∀ (n : Nat) (L : List Nat), L.length = 16 * n → (∀ x ∈ L, x < 256) →
      mapBlocks g n (mapBlocks f n L) = L := by
  intro n
  induction n with
  | zero =>
    intro L h _
    rw [List.length_eq_zero] at h
    simp [mapBlocks, h]
  | succ n ih =>
    intro L h hlt
    have htake : (L.take 16).length = 16 := by rw [List.length_take]; omega
    have hflen : (f (L.take 16)).length = 16 := hf _ htake
    rw [mapBlocks, mapBlocks,
      List.take_left' hflen, List.drop_left' hflen,
      hg _ htake (fun y hy => hlt y (List.take_subset _ _ hy)),
      ih (L.drop 16) (by rw [List.length_drop]; omega)
        (fun y hy => hlt y (List.drop_subset _ _ hy)),
      List.take_append_drop]

lemma length_flatten_byteToHex (L : List Nat) :
    ((L.map byteToHex).flatten).length = 2 * L.length := by
  induction L with
  | nil => simp
  | cons b L ih => simp [byteToHex, ih]; omega

lemma flatten_byteToHex_drop (L : List Nat) (i : Nat) :
    ((L.map byteToHex).flatten).drop (2 * i) = (((L.drop i).map byteToHex)).flatten := by
  induction L generalizing i with
  | nil => simp
  | cons b L ih =>
    cases i with
    | zero => simp
    | succ j =>
      have hb : byteToHex b = [HEX_DIGITS.getD (b / 16 % 16) '0', HEX_DIGITS.getD (b % 16) '0'] := rfl
      rw [List.map_cons, List.flatten_cons, hb,
        show 2 * (j + 1) = 2 * j + 1 + 1 by omega]
      simp only [List.cons_append, List.drop_succ_cons, List.nil_append]
      rw [ih j]

lemma hexVal_digit : ∀ d, d < 16 → hexVal (HEX_DIGITS.getD d '0') = some d := by decide

lemma strtolHex_byteToHex (b : Nat) (hb : b < 256) : strtolHex (byteToHex b) = b := by
  have h1 : b / 16 % 16 < 16 := Nat.mod_lt _ (by norm_num)
  have h2 : b % 16 < 16 := Nat.mod_lt _ (by norm_num)
  show strtolHex [HEX_DIGITS.getD (b / 16 % 16) '0', HEX_DIGITS.getD (b % 16) '0'] = b
  rw [strtolHex, hexVal_digit _ h1, hexVal_digit _ h2]
  simp only []
  omega

/-! ## Claim C1: encode/decode round-trip -/

/-- **C1.** For every plaintext `P` of length 0 to 200 bytes, decoding
the encoding of `P` returns `P` exactly:
`decryptMessage (encryptMessage P) = P`. -/
theorem encrypt_decrypt_roundtrip (bc : BlockCipher) (P : List Char)
    (hlen : P.length ≤ 200) (hbytes : ∀ c ∈ P, c.toNat < 256) :
    decryptMessage bc (encryptMessage bc P) = .ok P := by
  have hpad1 : 1 ≤ encPadLen P.length ∧ encPadLen P.length ≤ 16 := by
    unfold encPadLen; omega
  set padLen := encPadLen P.length with hpaddef
  set N := P.length + padLen with hNdef
  have hN16 : N % 16 = 0 := by rw [hNdef, hpaddef]; unfold encPadLen; omega
  have hNlt : N < 256 := by omega
  have hinputLen : encInputLen P.length = N := by
    rw [encInputLen, ← hpaddef, ← hNdef, Nat.mod_eq_of_lt hNlt]
  set n := N / 16 with hndef
  have hn16 : 16 * n = N := by omega
  set input := P.map Char.toNat ++ List.replicate padLen padLen with hinputdef
  have hinputlen : input.length = N := by
    rw [hinputdef, List.length_append, List.length_map, List.length_replicate, hNdef]
  have hinputlt : ∀ x ∈ input, x < 256 := by
    intro x hx
    rw [hinputdef, List.mem_append] at hx
    rcases hx with h | h
    · rcases List.mem_map.1 h with ⟨c, hc, rfl⟩
      exact hbytes c hc
    · rw [List.eq_of_mem_replicate h]; omega
  have henc : encryptMessage bc P = ((mapBlocks bc.enc n input).map byteToHex).flatten := by
    rw [encryptMessage]
    simp only [hinputLen, ← hpaddef, ← hinputdef]
    rw [show (N + 15) / 16 = n by omega, List.take_of_length_le (le_of_eq hinputlen)]
  set out := mapBlocks bc.enc n input with houtdef
  have houtlen : out.length = N := by
    rw [houtdef, mapBlocks_length bc.enc bc.enc_len n input (by omega), hn16]
  have houtlt : ∀ x ∈ out, x < 256 :=
    mapBlocks_lt bc.enc bc.enc_lt n input (by omega) hinputlt
  have hhexlen : (encryptMessage bc P).length = 2 * N := by
    rw [henc, length_flatten_byteToHex, houtlen]
  have hcond : ¬ ((encryptMessage bc P).length % 32 ≠ 0) := by
    rw [hhexlen]; omega
  rw [decryptMessage, if_neg hcond]
  have hclen : decCipherLen (encryptMessage bc P).length = N := by
    rw [decCipherLen, hhexlen]
    omega
  simp only [hclen]
  have hcipher :
      (List.range N).map (fun i => strtolHex (((encryptMessage bc P).drop (2 * i)).take 2)) = out := by
    apply List.ext_getElem
    · rw [List.length_map, List.length_range, houtlen]
    · intro i h1 h2
      rw [List.length_map, List.length_range] at h1
      simp only [List.getElem_map, List.getElem_range]
      rw [henc, flatten_byteToHex_drop]
      have hio : i < out.length := by omega
      rw [List.drop_eq_getElem_cons hio, List.map_cons, List.flatten_cons]
      have hb2 : byteToHex out[i] = [HEX_DIGITS.getD (out[i] / 16 % 16) '0',
          HEX_DIGITS.getD (out[i] % 16) '0'] := rfl
      rw [hb2]
      simp only [List.cons_append, List.take_succ_cons, List.take_zero]
      rw [← hb2, strtolHex_byteToHex out[i] (houtlt _ (List.getElem_mem hio))]
  rw [hcipher]
  rw [show (N + 15) / 16 = n by omega]
  rw [houtdef, mapBlocks_inv bc.enc bc.dec bc.enc_len bc.dec_enc n input (by omega) hinputlt]
  have hpadread : input.getD (N - 1) 0 = padLen := by
    rw [hinputdef, List.getD_append_right _ _ _ _ (by rw [List.length_map]; omega),
      List.getD_eq_getElem _ _ (by rw [List.length_replicate, List.length_map]; omega),
      List.getElem_replicate]
  rw [hpadread, if_neg (by omega : ¬ padLen > 16)]
  rw [show N - padLen = (P.map Char.toNat).length by rw [List.length_map]; omega,
    hinputdef, List.take_left, List.map_map]
  simp only [Function.comp_def, Char.ofNat_toNat, List.map_id']

/-- Witness for C1 at the concrete plaintext `"HI"`. -/
theorem encrypt_decrypt_roundtrip_witness :
    (['H', 'I'] : List Char).length ≤ 200 ∧ (∀ c ∈ (['H', 'I'] : List Char), c.toNat < 256) ∧
    decryptMessage xorCipher (encryptMessage xorCipher ['H', 'I']) = .ok ['H', 'I'] :=
  ⟨by decide, by decide,
    encrypt_decrypt_roundtrip xorCipher ['H', 'I'] (by decide) (by decide)⟩

/-! ## Claims C2 and C9: output shape and the `uint8_t` length overflow -/

lemma encryptMessage_length (bc : BlockCipher) (P : List Char) :
    (encryptMessage bc P).length = 2 * encInputLen P.length := by
  have h16 : encInputLen P.length % 16 = 0 := by
    unfold encInputLen encPadLen; omega
  have hle : encInputLen P.length ≤ P.length + encPadLen P.length := Nat.mod_le _ _
  simp only [encryptMessage]
  rw [length_flatten_byteToHex,
    mapBlocks_length bc.enc bc.enc_len _ _
      (by
        rw [List.length_take, List.length_append, List.length_map, List.length_replicate]
        omega)]
  omega

set_option maxRecDepth 8000

/-- **C2 counterexample.** At a plaintext of 240 bytes the `uint8_t`
padded length wraps to `0 = 256 % 256`, so `encryptMessage` returns the
empty hex string — its length is not a *positive* multiple of 32, and the
pre-hex byte length is `0`, not `len + 16`. -/
theorem encrypt_length_zero_at_240 :
    encryptMessage xorCipher (List.replicate 240 'a') = [] ∧
    ¬ (0 < (encryptMessage xorCipher (List.replicate 240 'a')).length ∧
       encInputLen (List.replicate 240 'a' : List Char).length = 240 + 16) := by
  constructor
  · decide
  · decide

/-- **C2 (amended).** For every plaintext of length at most 239 bytes
(so that the `uint8_t` padded length does not wrap), `encryptMessage`
returns a hex string whose length is a positive multiple of 32, and when
`len % 16 == 0` the pre-hex padded byte length is exactly `len + 16`. -/
theorem encrypt_length_multiple_of_32 (bc : BlockCipher) (P : List Char)
    (h : P.length ≤ 239) :
    (encryptMessage bc P).length % 32 = 0 ∧ 0 < (encryptMessage bc P).length ∧
    (P.length % 16 = 0 → encInputLen P.length = P.length + 16) := by
  have hnowrap : encInputLen P.length = P.length + encPadLen P.length := by
    unfold encInputLen encPadLen; omega
  rw [encryptMessage_length bc P, hnowrap]
  unfold encPadLen
  refine ⟨by omega, by omega, fun h16 => by omega⟩

/-- Witness for C2 (amended) at the empty plaintext: one full padding
block, 32 hex characters. -/
theorem encrypt_length_multiple_of_32_witness :
    (encryptMessage xorCipher []).length % 32 = 0 ∧
    0 < (encryptMessage xorCipher []).length ∧
    (([] : List Char).length % 16 = 0 → encInputLen ([] : List Char).length = ([] : List Char).length + 16) :=
  encrypt_length_multiple_of_32 xorCipher [] (by decide)

/-- **C9.** `encryptMessage` computes its padded length as a `uint8_t`,
so for plaintext lengths 240–255 the padded length 256 wraps to 0: no
block is encrypted, the returned hex string is empty, and the `memcpy`
writes outside the zero-length allocation; the writes stay in bounds
exactly for plaintexts of at most 239 bytes. -/
theorem encrypt_overflow_240_255 (bc : BlockCipher) (P : List Char) :
    (240 ≤ P.length → P.length ≤ 255 →
      encInputLen P.length = 0 ∧ encryptMessage bc P = [] ∧
      encryptMemSafe P.length = false) ∧
    (encryptMemSafe P.length = true ↔ P.length ≤ 239) := by
  constructor
  · intro h240 h255
    have hzero : encInputLen P.length = 0 := by
      unfold encInputLen encPadLen; omega
    refine ⟨hzero, ?_, ?_⟩
    · simp [encryptMessage, hzero, mapBlocks]
    · unfold encryptMemSafe encPadLen
      rw [hzero]
      simp only [decide_eq_false_iff_not]
      omega
  · unfold encryptMemSafe encInputLen encPadLen
    simp only [decide_eq_true_eq]
    omega

/-- Witness for C9 at a concrete 240-byte plaintext. -/
theorem encrypt_overflow_240_255_witness :
    encInputLen (List.replicate 240 'a' : List Char).length = 0 ∧
    encryptMessage xorCipher (List.replicate 240 'a') = [] ∧
    encryptMemSafe (List.replicate 240 'a' : List Char).length = false :=
  (encrypt_overflow_240_255 xorCipher (List.replicate 240 'a')).1 (by decide) (by decide)

/-! ## Claims C6 and C10: decode format check and buffer safety -/

/-- **C6.** `decryptMessage` returns the `"[ERRO DECRYPT]"` format-error
result exactly when the input hex length is not a multiple of 32 (and in
that case it returns before touching any buffer). -/
theorem decrypt_format_error_iff (bc : BlockCipher) (h : List Char) :
    decryptMessage bc h = .error () ↔ h.length % 32 ≠ 0 := by
  by_cases hc : h.length % 32 ≠ 0
  · rw [decryptMessage, if_pos hc]
    simp [hc]
  · rw [decryptMessage, if_neg hc]
    simp [hc]

/-- **C10 counterexample.** A 544-character hex input (a multiple of 32
that is not below 512) is processed with every buffer index in range —
`cipherLen = 272 % 256 = 16 > 0` — so "memory-safe only for lengths
strictly below 512" is false as stated. -/
theorem decrypt_memsafe_at_544 :
    decryptMemSafe 544 = true ∧ 544 % 32 = 0 ∧ ¬ (544 < 512) := by decide

/-- **C10 (amended).** `decryptMessage` accepts the empty string (0 is a
multiple of 32) and truncates the byte count to `uint8_t` (512 hex
characters wrap to count 0); in both cases the padding read
`output[cipherLen - 1]` is out of bounds.  All indices are in range iff
the length check fails or `cipherLen > 0`, i.e. iff the hex length is not
a multiple of 32 or not a multiple of 512; in particular every positive
multiple of 32 below 512 is safe. -/
theorem decrypt_memsafe_iff (bc : BlockCipher) (n : Nat) :
    decryptMessage bc [] ≠ .error () ∧
    decCipherLen 512 = 0 ∧ decryptMemSafe 0 = false ∧ decryptMemSafe 512 = false ∧
    (decryptMemSafe n = true ↔ (n % 32 ≠ 0 ∨ n % 512 ≠ 0)) ∧
    (n % 32 = 0 → 0 < n → n < 512 → decryptMemSafe n = true) := by
  refine ⟨?_, by decide, by decide, by decide, ?_, ?_⟩
  · rw [decryptMessage, if_neg (by decide)]
    simp
  · unfold decryptMemSafe decCipherLen
    simp only [Bool.or_eq_true, decide_eq_true_eq]
    omega
  · intro h1 h2 h3
    unfold decryptMemSafe decCipherLen
    simp only [Bool.or_eq_true, decide_eq_true_eq]
    omega

/-- Witness for C10 (amended) at the concrete safe length 32. -/
theorem decrypt_memsafe_iff_witness : decryptMemSafe 32 = true :=
  (decrypt_memsafe_iff xorCipher 32).2.2.2.2.2 (by decide) (by decide) (by decide)

/-! ## Helper lemmas about `processLoRaKey` -/

lemma u32sub_eq (a b : Nat) (h1 : b ≤ a) (h2 : a < U32) : u32sub a b = a - b := by
  unfold u32sub U32 at *
  omega

/-- A non-function key press that starts a new character (different key,
or the 1000 ms timeout elapsed): append glyph 0 of the key's row. -/
lemma processLoRaKey_newChar (bc : BlockCipher) (k now : Nat) (s : SysState)
    (hk : isSpecialKey k = false)
    (hfresh : ¬ (k = s.lastKeyPressed ∧ u32sub now s.lastKeyTime < T9_TIMEOUT))
    (hc : getT9Char k 0 ≠ NUL) (hlen : s.messageBuffer.length < 126) :
    processLoRaKey bc k now s =
      { s with messageBuffer := s.messageBuffer ++ [getT9Char k 0],
               t9CharIndex := 0, lastKeyPressed := k, lastKeyTime := now } := by
  have h7 : k ≠ 7 := by intro h; subst h; exact absurd hk (by decide)
  have h11 : k ≠ 11 := by intro h; subst h; exact absurd hk (by decide)
  have h15 : k ≠ 15 := by intro h; subst h; exact absurd hk (by decide)
  simp only [processLoRaKey, if_neg h7, if_neg h11, if_neg h15, hk, Bool.false_eq_true,
    if_false, if_neg hfresh, if_pos (And.intro hc hlen)]

/-- A repeated press of the same non-function key within the timeout:
advance the cycle index and replace the last buffer character. -/
lemma processLoRaKey_cycle (bc : BlockCipher) (k now : Nat) (s : SysState)
    (hk : isSpecialKey k = false)
    (hcyc : k = s.lastKeyPressed) (ht : u32sub now s.lastKeyTime < T9_TIMEOUT)
    (hc : getT9Char k ((s.t9CharIndex + 1) % 256) ≠ NUL)
    (hlen : s.messageBuffer.dropLast.length < 126) :
    processLoRaKey bc k now s =
      { s with
        messageBuffer := s.messageBuffer.dropLast ++ [getT9Char k ((s.t9CharIndex + 1) % 256)],
        t9CharIndex := (s.t9CharIndex + 1) % 256,
        lastKeyPressed := k, lastKeyTime := now } := by
  have h7 : k ≠ 7 := by intro h; subst h; exact absurd hk (by decide)
  have h11 : k ≠ 11 := by intro h; subst h; exact absurd hk (by decide)
  have h15 : k ≠ 15 := by intro h; subst h; exact absurd hk (by decide)
  simp only [processLoRaKey, if_neg h7, if_neg h11, if_neg h15, hk, Bool.false_eq_true,
    if_false, if_pos (And.intro hcyc ht), if_pos (And.intro hc hlen)]

/-! ## Claim C3: the Back key on the LoRa screen -/

/-- **C3 counterexample.** From a LoRa-screen state with a live
multi-tap session (`t9CharIndex = 2`, `lastKeyPressed = 1`), Back
(ScanCode 7) clears the buffer and goes to the Menu but does *not* reset
the session: `t9CharIndex` and `lastKeyPressed` keep their old values. -/
theorem back_key_leaves_session :
    (processLoRaKey xorCipher 7 600 ⟨.lora, true, ['A'], 2, 1, 500, 0, [], [], []⟩).messageBuffer = [] ∧
    (processLoRaKey xorCipher 7 600 ⟨.lora, true, ['A'], 2, 1, 500, 0, [], [], []⟩).currentScreen = .menu ∧
    ¬ ((processLoRaKey xorCipher 7 600 ⟨.lora, true, ['A'], 2, 1, 500, 0, [], [], []⟩).t9CharIndex = 0 ∧
       (processLoRaKey xorCipher 7 600 ⟨.lora, true, ['A'], 2, 1, 500, 0, [], [], []⟩).lastKeyPressed = 255) := by
  decide

/-- **C3 (amended).** On the LoRa screen, Back (ScanCode 7) clears the
MessageBuffer and transitions to the Menu, leaving every other field of
the state — in particular the multi-tap session `t9CharIndex`,
`lastKeyPressed`, `lastKeyTime` — unchanged. -/
theorem back_key_clears_buffer_to_menu (bc : BlockCipher) (t : Nat) (s : SysState) :
    processLoRaKey bc 7 t s = { s with messageBuffer := [], currentScreen := .menu } := by
  simp [processLoRaKey]

/-! ## Claim C5: the Send key on the LoRa screen -/

/-- **C5.** On the LoRa screen, Send (ScanCode 11) with a non-empty
buffer transmits the encryption of the buffer iff the encryption flag is
set (the raw text otherwise), appends the *plaintext* entry `"> msg\n"`
to the visible LoRa log, and clears the buffer; with an empty buffer it
changes nothing. -/
theorem send_key_behavior (bc : BlockCipher) (t : Nat) (s : SysState) :
    processLoRaKey bc 11 t s =
      if s.messageBuffer = [] then s
      else
        { s with
          loraSent := s.loraSent ++
            [if s.encryptionEnabled then encryptMessage bc s.messageBuffer else s.messageBuffer],
          loraLog := s.loraLog ++ ['>' :: ' ' :: (s.messageBuffer ++ ['\n'])],
          messageBuffer := [] } := by
  by_cases hb : s.messageBuffer = []
  · rw [if_pos hb]
    simp [processLoRaKey, hb]
  · rw [if_neg hb]
    have hpos : s.messageBuffer.length > 0 := List.length_pos.2 hb
    simp [processLoRaKey, hpos]

/-! ## Claim C4: multi-tap cycling on key "2" -/

/-- **C4.** Multi-tap on the ScanCode for "2" (key index 1, glyph row
`{A,B,C,2}`): three presses, each within 1000 ms of the previous, yield
'A','B','C' in order, each replacing the previous character; a fourth
press within the timeout wraps to '2'; a press after the timeout — or of
a different non-function key — starts a new character at cycle index 0
without replacing the previous one. -/
theorem multitap_cycle_key2 (bc : BlockCipher) (s : SysState) (t1 t2 t3 t4 t5 : Nat)
    (hfresh : s.lastKeyPressed ≠ 1) (hbuf : s.messageBuffer.length < 125)
    (h12 : t1 ≤ t2) (h23 : t2 ≤ t3) (h34 : t3 ≤ t4) (h45 : t4 ≤ t5) (hU : t5 < U32)
    (hw2 : t2 - t1 < 1000) (hw3 : t3 - t2 < 1000) (hw4 : t4 - t3 < 1000)
    (hto : 1000 ≤ t5 - t4) :
    (processLoRaKey bc 1 t1 s).messageBuffer = s.messageBuffer ++ ['A'] ∧
    (processLoRaKey bc 1 t2 (processLoRaKey bc 1 t1 s)).messageBuffer
      = s.messageBuffer ++ ['B'] ∧
    (processLoRaKey bc 1 t3 (processLoRaKey bc 1 t2 (processLoRaKey bc 1 t1 s))).messageBuffer
      = s.messageBuffer ++ ['C'] ∧
    (processLoRaKey bc 1 t4 (processLoRaKey bc 1 t3 (processLoRaKey bc 1 t2
        (processLoRaKey bc 1 t1 s)))).messageBuffer
      = s.messageBuffer ++ ['2'] ∧
    (processLoRaKey bc 1 t5 (processLoRaKey bc 1 t4 (processLoRaKey bc 1 t3
        (processLoRaKey bc 1 t2 (processLoRaKey bc 1 t1 s))))).messageBuffer
      = s.messageBuffer ++ ['2', 'A'] ∧
    (processLoRaKey bc 1 t5 (processLoRaKey bc 1 t4 (processLoRaKey bc 1 t3
        (processLoRaKey bc 1 t2 (processLoRaKey bc 1 t1 s))))).t9CharIndex = 0 ∧
    (∀ k t, k < 16 → isSpecialKey k = false → k ≠ 1 →
      (processLoRaKey bc k t (processLoRaKey bc 1 t4 (processLoRaKey bc 1 t3
          (processLoRaKey bc 1 t2 (processLoRaKey bc 1 t1 s))))).messageBuffer
        = s.messageBuffer ++ ['2', getT9Char k 0] ∧
      (processLoRaKey bc k t (processLoRaKey bc 1 t4 (processLoRaKey bc 1 t3
          (processLoRaKey bc 1 t2 (processLoRaKey bc 1 t1 s))))).t9CharIndex = 0) := by
  have hU2 : t2 < U32 := by omega
  have hU3 : t3 < U32 := by omega
  have hU4 : t4 < U32 := by omega
  have gA : getT9Char 1 0 = 'A' := by decide
  have gB : getT9Char 1 1 = 'B' := by decide
  have gC : getT9Char 1 2 = 'C' := by decide
  have g2 : getT9Char 1 3 = '2' := by decide
  have hs1 : processLoRaKey bc 1 t1 s = t9State s (s.messageBuffer ++ ['A']) 0 1 t1 := by
    rw [processLoRaKey_newChar bc 1 t1 s (by decide)
      (fun hcc => hfresh hcc.1.symm) (by decide) (by omega), gA]
    rfl
  have hs2 : processLoRaKey bc 1 t2 (processLoRaKey bc 1 t1 s) =
      t9State s (s.messageBuffer ++ ['B']) 1 1 t2 := by
    rw [hs1]
    rw [processLoRaKey_cycle bc 1 t2 (t9State s (s.messageBuffer ++ ['A']) 0 1 t1)
      (by decide) rfl
      (by
        show u32sub t2 t1 < T9_TIMEOUT
        rw [u32sub_eq t2 t1 h12 hU2]; unfold T9_TIMEOUT; omega)
      (by show getT9Char 1 ((0 + 1) % 256) ≠ NUL; decide)
      (by
        show (s.messageBuffer ++ ['A']).dropLast.length < 126
        rw [List.dropLast_concat]; omega)]
    simp [t9State, List.dropLast_concat, gB]
  have hs3 : processLoRaKey bc 1 t3 (processLoRaKey bc 1 t2 (processLoRaKey bc 1 t1 s)) =
      t9State s (s.messageBuffer ++ ['C']) 2 1 t3 := by
    rw [hs2]
    rw [processLoRaKey_cycle bc 1 t3 (t9State s (s.messageBuffer ++ ['B']) 1 1 t2)
      (by decide) rfl
      (by
        show u32sub t3 t2 < T9_TIMEOUT
        rw [u32sub_eq t3 t2 h23 hU3]; unfold T9_TIMEOUT; omega)
      (by show getT9Char 1 ((1 + 1) % 256) ≠ NUL; decide)
      (by
        show (s.messageBuffer ++ ['B']).dropLast.length < 126
        rw [List.dropLast_concat]; omega)]
    simp [t9State, List.dropLast_concat, gC]
  have hs4 : processLoRaKey bc 1 t4 (processLoRaKey bc 1 t3 (processLoRaKey bc 1 t2
      (processLoRaKey bc 1 t1 s))) = t9State s (s.messageBuffer ++ ['2']) 3 1 t4 := by
    rw [hs3]
    rw [processLoRaKey_cycle bc 1 t4 (t9State s (s.messageBuffer ++ ['C']) 2 1 t3)
      (by decide) rfl
      (by
        show u32sub t4 t3 < T9_TIMEOUT
        rw [u32sub_eq t4 t3 h34 hU4]; unfold T9_TIMEOUT; omega)
      (by show getT9Char 1 ((2 + 1) % 256) ≠ NUL; decide)
      (by
        show (s.messageBuffer ++ ['C']).dropLast.length < 126
        rw [List.dropLast_concat]; omega)]
    simp [t9State, List.dropLast_concat, g2]
  have hs5 : processLoRaKey bc 1 t5 (processLoRaKey bc 1 t4 (processLoRaKey bc 1 t3
      (processLoRaKey bc 1 t2 (processLoRaKey bc 1 t1 s)))) =
      t9State s (s.messageBuffer ++ ['2', 'A']) 0 1 t5 := by
    rw [hs4]
    rw [processLoRaKey_newChar bc 1 t5 (t9State s (s.messageBuffer ++ ['2']) 3 1 t4)
      (by decide)
      (by
        intro hcc
        have h2 : u32sub t5 t4 < T9_TIMEOUT := hcc.2
        rw [u32sub_eq t5 t4 h45 hU] at h2
        unfold T9_TIMEOUT at h2
        omega)
      (by show getT9Char 1 0 ≠ NUL; decide)
      (by
        show (s.messageBuffer ++ ['2']).length < 126
        rw [List.length_append]; simp; omega)]
    simp [t9State, gA, List.append_assoc]
  refine ⟨by rw [hs1]; rfl, by rw [hs2]; rfl, by rw [hs3]; rfl, by rw [hs4]; rfl,
    by rw [hs5]; rfl, by rw [hs5]; rfl,
    fun k t hk16 hksp hkne => ?_⟩
  have hg : getT9Char k 0 ≠ NUL := by
    revert hksp
    interval_cases k <;> decide
  have hstep := processLoRaKey_newChar bc k t (t9State s (s.messageBuffer ++ ['2']) 3 1 t4)
    hksp (fun hcc => hkne hcc.1) hg
    (by
      show (s.messageBuffer ++ ['2']).length < 126
      rw [List.length_append]; simp; omega)
  rw [hs4, hstep]
  constructor
  · simp [t9State, List.append_assoc]
  · rfl

/-- Witness for C4: the concrete five-press scenario from the fresh LoRa
entry state at times 0, 100, 200, 300, 1400. -/
theorem multitap_cycle_key2_witness :
    (processLoRaKey xorCipher 1 100 (processLoRaKey xorCipher 1 0 loraEntryState)).messageBuffer
      = ['B'] ∧
    (processLoRaKey xorCipher 1 1400 (processLoRaKey xorCipher 1 300 (processLoRaKey xorCipher 1 200
        (processLoRaKey xorCipher 1 100 (processLoRaKey xorCipher 1 0 loraEntryState))))).messageBuffer
      = ['2', 'A'] ∧
    (processLoRaKey xorCipher 4 1400 (processLoRaKey xorCipher 1 300 (processLoRaKey xorCipher 1 200
        (processLoRaKey xorCipher 1 100 (processLoRaKey xorCipher 1 0 loraEntryState))))).messageBuffer
      = ['2', 'G'] := by
  have h := multitap_cycle_key2 xorCipher loraEntryState 0 100 200 300 1400
    (by decide) (by decide) (by omega) (by omega) (by omega) (by omega)
    (by unfold U32; omega) (by omega) (by omega) (by omega) (by omega)
  exact ⟨h.2.1, h.2.2.2.2.1, (h.2.2.2.2.2.2 4 1400 (by omega) (by decide) (by omega)).1⟩

/-! ## Claim C7: the radio-link reader -/

/-- **C7.** For every non-empty inbound radio line, one `loraTask`
iteration displays the decryption of the line iff encryption is enabled,
the length is ≥ 32 and every character is a hex digit (the line itself
otherwise); the resulting entry `"< text\n"` is appended to both the
LoRa log and the Monitor log, the monitor message counter is incremented,
and the active screen (which is never consulted) is unchanged. -/
theorem lora_rx_classify_append (bc : BlockCipher) (msg : List Char) (s : SysState)
    (h : msg ≠ []) :
    (loraTaskStep bc msg s).loraLog = s.loraLog ++
      ['<' :: ' ' :: ((if s.encryptionEnabled ∧ 32 ≤ msg.length ∧ msg.all isxdigit = true then
          (match decryptMessage bc msg with | .error _ => errDecrypt | .ok m => m)
        else msg) ++ ['\n'])] ∧
    (loraTaskStep bc msg s).monitorLog = s.monitorLog ++
      ['<' :: ' ' :: ((if s.encryptionEnabled ∧ 32 ≤ msg.length ∧ msg.all isxdigit = true then
          (match decryptMessage bc msg with | .error _ => errDecrypt | .ok m => m)
        else msg) ++ ['\n'])] ∧
    (loraTaskStep bc msg s).monitorMsgCount = (s.monitorMsgCount + 1) % U32 ∧
    (loraTaskStep bc msg s).currentScreen = s.currentScreen ∧
    (loraTaskStep bc msg s).messageBuffer = s.messageBuffer := by
  have hlen : ¬ (msg.length = 0) := by
    rw [List.length_eq_zero]
    exact h
  simp [loraTaskStep, h]

/-! ## Helper lemmas about `FloatNear` (claim C8)

`FloatNear t q r` pins `r` to within half a ULP of `q`.  The two
consequences used below: every admissible `r` lies within relative error
`2^-t` of `q` (`FloatNear_bounds`), and when `q` sits strictly inside a
binade and is not a rounding midpoint the admissible `r` is unique
(`FloatNear_pin24`, used for the `float` argument). -/

lemma le_lit_of_mul (x c a B : ℚ) (hc : 0 < c) (h1 : x * c ≤ a) (h2 : a ≤ B * c) : x ≤ B :=
  le_of_mul_le_mul_right (h1.trans h2) hc

lemma lit_le_of_mul (x c a A : ℚ) (hc : 0 < c) (h1 : a ≤ x * c) (h2 : A * c ≤ a) : A ≤ x :=
  le_of_mul_le_mul_right (h2.trans h1) hc

lemma FloatNear_bounds (t : Nat) (ht : 1 ≤ t) (q r : ℚ) (h : FloatNear t q r) :
    0 < r ∧ r * (1 - ((2:ℚ)^(t:ℕ))⁻¹) ≤ q ∧ q ≤ r * (1 + ((2:ℚ)^(t:ℕ))⁻¹) := by
  obtain ⟨m, e, hr, hm1, hm2, herr⟩ := h
  have h2e : (0:ℚ) < (2:ℚ)^e := zpow_pos (by norm_num) e
  have h2t : (0:ℚ) < (2:ℚ)^(t:ℕ) := by positivity
  have hm1' : (2:ℚ)^(t-1:ℕ) ≤ (m:ℚ) := by exact_mod_cast hm1
  have hmpos : (0:ℚ) < (m:ℚ) := lt_of_lt_of_le (by positivity) hm1'
  have hrpos : 0 < r := by rw [hr]; exact mul_pos hmpos h2e
  have hpow : (2:ℚ)^(t-1:ℕ) * 2 = 2^(t:ℕ) := by
    rw [← pow_succ]
    congr 1
    omega
  have hstep : (2:ℚ)^(t:ℕ) * 2^(e-1) ≤ r := by
    rw [hr, zpow_sub₀ (by norm_num : (2:ℚ) ≠ 0), zpow_one]
    calc (2:ℚ)^(t:ℕ) * (2^e / 2) = (2^(t-1:ℕ) * 2) * (2^e / 2) := by rw [hpow]
      _ = 2^(t-1:ℕ) * 2^e := by ring
      _ ≤ (m:ℚ) * 2^e := mul_le_mul_of_nonneg_right hm1' (le_of_lt h2e)
  have hkey : (2:ℚ)^(e-1) ≤ r * ((2:ℚ)^(t:ℕ))⁻¹ := by
    rw [← div_eq_mul_inv, le_div_iff₀ h2t, mul_comm]
    exact hstep
  have habs := abs_le.1 herr
  refine ⟨hrpos, ?_, ?_⟩
  · nlinarith [habs.2, hkey]
  · nlinarith [habs.1, hkey]

lemma FloatNear_pin24 (k : ℕ) (hk : 1 ≤ k) (m0 : ℕ) (q r : ℚ) (h : FloatNear 24 q r)
    (hA : q * 2^(k-1) < 2^(23:ℕ) * (1 - ((2:ℚ)^(24:ℕ))⁻¹))
    (hB : (2:ℚ)^(24:ℕ) * (1 + ((2:ℚ)^(24:ℕ))⁻¹) ≤ q * 2^(k+1))
    (hm1 : (m0:ℚ) - 1/2 < q * 2^k) (hm2 : q * 2^k < (m0:ℚ) + 1/2) :
    r = (m0:ℚ) / 2^k := by
  obtain ⟨hrpos, hlo, hhi⟩ := FloatNear_bounds 24 (by norm_num) q r h
  obtain ⟨m, e, hr, hml, hmh, herr⟩ := h
  have h2e : (0:ℚ) < (2:ℚ)^e := zpow_pos (by norm_num) e
  have h2k : (0:ℚ) < (2:ℚ)^(k:ℕ) := by positivity
  have hml23 : (2:ℤ)^(23:ℕ) ≤ m := by
    have h23 : ((2:ℤ)^(24-1:ℕ)) = 2^(23:ℕ) := by norm_num
    rw [h23] at hml
    exact hml
  have hml' : (2:ℚ)^(23:ℕ) ≤ (m:ℚ) := by exact_mod_cast hml23
  have hmh' : (m:ℚ) < 2^(24:ℕ) := by exact_mod_cast hmh
  have hmpos : (0:ℚ) < (m:ℚ) := lt_of_lt_of_le (by positivity) hml'
  have hcast1 : ((2:ℚ)^(k+1:ℕ)) = (2:ℚ)^((k:ℤ)+1) := by
    rw [← zpow_natCast]
    congr 1
  have hcast2 : ((2:ℚ)^(k-1:ℕ)) = (2:ℚ)^((k:ℤ)-1) := by
    rw [← zpow_natCast]
    congr 1
    omega
  have hcast0 : ((2:ℚ)^(k:ℕ)) = (2:ℚ)^((k:ℤ)) := by rw [← zpow_natCast]
  have he : e = -(k:ℤ) := by
    by_contra hne
    rcases lt_or_gt_of_ne hne with hlt | hgt
    · have he2 : (2:ℚ)^e ≤ 2^(-(k:ℤ)-1) :=
        zpow_le_zpow_right₀ (by norm_num) (by omega)
      have hzp : (0:ℚ) < (2:ℚ)^(-(k:ℤ)-1) := zpow_pos (by norm_num) _
      have hrub : r < (2:ℚ)^(24:ℕ) * 2^(-(k:ℤ)-1) := by
        rw [hr]
        have ha : (m:ℚ) * 2^e ≤ (m:ℚ) * 2^(-(k:ℤ)-1) :=
          mul_le_mul_of_nonneg_left he2 (le_of_lt hmpos)
        have hb2 : (m:ℚ) * 2^(-(k:ℤ)-1) < 2^(24:ℕ) * 2^(-(k:ℤ)-1) :=
          mul_lt_mul_of_pos_right hmh' hzp
        linarith
      have hconv : (2:ℚ)^(-(k:ℤ)-1) * 2^(k+1:ℕ) = 1 := by
        rw [hcast1, ← zpow_add₀ (by norm_num : (2:ℚ) ≠ 0)]
        norm_num
      have hipos : (0:ℚ) < 1 + ((2:ℚ)^(24:ℕ))⁻¹ := by positivity
      have hp1 : (0:ℚ) < (2:ℚ)^(k+1:ℕ) := by positivity
      have hq2 : q * 2^(k+1:ℕ) < 2^(24:ℕ) * (1 + ((2:ℚ)^(24:ℕ))⁻¹) := by
        have step2 : r * (1 + ((2:ℚ)^(24:ℕ))⁻¹) <
            ((2:ℚ)^(24:ℕ) * 2^(-(k:ℤ)-1)) * (1 + ((2:ℚ)^(24:ℕ))⁻¹) :=
          mul_lt_mul_of_pos_right hrub hipos
        calc q * 2^(k+1:ℕ)
            ≤ (r * (1 + ((2:ℚ)^(24:ℕ))⁻¹)) * 2^(k+1:ℕ) :=
              mul_le_mul_of_nonneg_right hhi (le_of_lt hp1)
          _ < (((2:ℚ)^(24:ℕ) * 2^(-(k:ℤ)-1)) * (1 + ((2:ℚ)^(24:ℕ))⁻¹)) * 2^(k+1:ℕ) :=
              mul_lt_mul_of_pos_right step2 hp1
          _ = (2:ℚ)^(24:ℕ) * (1 + ((2:ℚ)^(24:ℕ))⁻¹) * (2^(-(k:ℤ)-1) * 2^(k+1:ℕ)) := by
              ring
          _ = (2:ℚ)^(24:ℕ) * (1 + ((2:ℚ)^(24:ℕ))⁻¹) := by rw [hconv, mul_one]
      linarith
    · have he2 : (2:ℚ)^(-(k:ℤ)+1) ≤ 2^e :=
        zpow_le_zpow_right₀ (by norm_num) (by omega)
      have hrlb : (2:ℚ)^(23:ℕ) * 2^(-(k:ℤ)+1) ≤ r := by
        rw [hr]
        calc (2:ℚ)^(23:ℕ) * 2^(-(k:ℤ)+1)
            ≤ (2:ℚ)^(23:ℕ) * 2^e := mul_le_mul_of_nonneg_left he2 (by positivity)
          _ ≤ (m:ℚ) * 2^e := mul_le_mul_of_nonneg_right hml' (le_of_lt h2e)
      have hconv : (2:ℚ)^(-(k:ℤ)+1) * 2^(k-1:ℕ) = 1 := by
        rw [hcast2, ← zpow_add₀ (by norm_num : (2:ℚ) ≠ 0)]
        norm_num
      have hineg : (0:ℚ) < 1 - ((2:ℚ)^(24:ℕ))⁻¹ := by norm_num
      have hp1 : (0:ℚ) < (2:ℚ)^(k-1:ℕ) := by positivity
      have hq2 : (2:ℚ)^(23:ℕ) * (1 - ((2:ℚ)^(24:ℕ))⁻¹) ≤ q * 2^(k-1:ℕ) := by
        have step2 : ((2:ℚ)^(23:ℕ) * 2^(-(k:ℤ)+1)) * (1 - ((2:ℚ)^(24:ℕ))⁻¹) ≤
            r * (1 - ((2:ℚ)^(24:ℕ))⁻¹) :=
          mul_le_mul_of_nonneg_right hrlb (le_of_lt hineg)
        calc (2:ℚ)^(23:ℕ) * (1 - ((2:ℚ)^(24:ℕ))⁻¹)
            = (((2:ℚ)^(23:ℕ) * 2^(-(k:ℤ)+1)) * (1 - ((2:ℚ)^(24:ℕ))⁻¹)) * 2^(k-1:ℕ) := by
              rw [show (((2:ℚ)^(23:ℕ) * 2^(-(k:ℤ)+1)) * (1 - ((2:ℚ)^(24:ℕ))⁻¹)) * 2^(k-1:ℕ)
                  = (2:ℚ)^(23:ℕ) * (1 - ((2:ℚ)^(24:ℕ))⁻¹) * (2^(-(k:ℤ)+1) * 2^(k-1:ℕ))
                from by ring, hconv, mul_one]
          _ ≤ (r * (1 - ((2:ℚ)^(24:ℕ))⁻¹)) * 2^(k-1:ℕ) :=
              mul_le_mul_of_nonneg_right step2 (le_of_lt hp1)
          _ ≤ q * 2^(k-1:ℕ) := mul_le_mul_of_nonneg_right hlo (le_of_lt hp1)
      linarith
  subst he
  have habs := abs_le.1 herr
  have hconv : (2:ℚ)^(-(k:ℤ)) * 2^(k:ℕ) = 1 := by
    rw [hcast0, ← zpow_add₀ (by norm_num : (2:ℚ) ≠ 0)]
    norm_num
  have hconv2 : (2:ℚ)^(-(k:ℤ)-1) * 2^(k:ℕ) = 1/2 := by
    rw [hcast0, ← zpow_add₀ (by norm_num : (2:ℚ) ≠ 0)]
    rw [show -(k:ℤ) - 1 + k = -1 by ring]
    norm_num
  have hub : (m:ℚ) - q * 2^(k:ℕ) ≤ 1/2 := by
    have hmm := mul_le_mul_of_nonneg_right (hr ▸ habs.2) (le_of_lt h2k)
    have hx : ((m:ℚ) * 2^(-(k:ℤ)) - q) * 2^(k:ℕ) = (m:ℚ) * (2^(-(k:ℤ)) * 2^(k:ℕ)) - q * 2^(k:ℕ) := by
      ring
    rw [hx, hconv, mul_one] at hmm
    rw [hconv2] at hmm
    exact hmm
  have hlb : q * 2^(k:ℕ) - (m:ℚ) ≤ 1/2 := by
    have h1 := habs.1
    rw [hr] at h1
    have hmm := mul_le_mul_of_nonneg_right (neg_le.1 h1) (le_of_lt h2k)
    have hx : (-((m:ℚ) * 2^(-(k:ℤ)) - q)) * 2^(k:ℕ)
        = q * 2^(k:ℕ) - (m:ℚ) * (2^(-(k:ℤ)) * 2^(k:ℕ)) := by ring
    rw [hx, hconv, mul_one] at hmm
    rw [hconv2] at hmm
    exact hmm
  have hm0 : m = (m0:ℤ) := by
    have i1 : (m:ℚ) < (m0:ℚ) + 1 := by linarith
    have i2 : (m0:ℚ) - 1 < (m:ℚ) := by linarith
    have j1 : m < (m0:ℤ) + 1 := by exact_mod_cast i1
    have j2 : (m0:ℤ) - 1 < m := by exact_mod_cast i2
    omega
  rw [hr, hm0, zpow_neg, zpow_natCast]
  push_cast
  exact (div_eq_mul_inv _ _).symm

/-- Introduction rule for `FloatNear` at a negative power-of-two
exponent, with the half-ULP condition split into two sign-free
inequalities so that concrete instances close by `norm_num`. -/
lemma FloatNear_of (t k : Nat) (q r : ℚ) (m : ℕ)
    (hr : r = (m:ℚ) / 2^k)
    (hm1 : (2:ℤ)^(t-1:ℕ) ≤ (m:ℤ)) (hm2 : (m:ℤ) < 2^(t:ℕ))
    (e1 : (q - r) * (2^(k:ℕ) * 2) ≤ 1) (e2 : (r - q) * (2^(k:ℕ) * 2) ≤ 1) :
    FloatNear t q r := by
  refine ⟨(m:ℤ), -(k:ℤ), ?_, hm1, hm2, ?_⟩
  · rw [hr, zpow_neg, zpow_natCast]
    push_cast
    exact div_eq_mul_inv _ _
  · have hpos : (0:ℚ) < 2^(k:ℕ) * 2 := by positivity
    have hval : (2:ℚ)^(-(k:ℤ)-1) = 1 / (2^(k:ℕ) * 2) := by
      rw [eq_div_iff (ne_of_gt hpos), ← zpow_natCast (2:ℚ) k]
      rw [show ((2:ℚ)^((k:ℕ):ℤ) * 2) = (2:ℚ)^((k:ℤ)+1) by
        rw [zpow_add₀ (by norm_num : (2:ℚ) ≠ 0)]; norm_num]
      rw [← zpow_add₀ (by norm_num : (2:ℚ) ≠ 0)]
      norm_num
    rw [hval, abs_le]
    constructor
    · rw [neg_le, ← neg_sub]
      rw [le_div_iff₀ hpos] at *
      linarith [e1]
    · rw [le_div_iff₀ hpos]
      linarith [e2]

/-- Interval propagation through the `(v - 3.0) / 1.2 * 100` chain of
`voltageToPercent` in `double` arithmetic: literal bounds `SA ≤ v-3 ≤ SB`
propagate to literal bounds `PA ≤ p ≤ PB` on the rounded product,
provided the stated `norm_num`-checkable side conditions hold. -/
lemma chase53 (c12 s q p D SA SB QA QB PA PB : ℚ)
    (hc12 : FloatNear 53 (6/5) c12) (hs : FloatNear 53 D s)
    (hq : FloatNear 53 (s / c12) q) (hp : FloatNear 53 (q * 100) p)
    (hDA : SA * (1 + ((2:ℚ)^(53:ℕ))⁻¹) ≤ D) (hDB : D ≤ SB * (1 - ((2:ℚ)^(53:ℕ))⁻¹))
    (_hSA0 : 0 ≤ SA)
    (hQ1 : SB / (11999999999/10^10) ≤ QB * (1 - ((2:ℚ)^(53:ℕ))⁻¹))
    (hQ2 : QA * (1 + ((2:ℚ)^(53:ℕ))⁻¹) ≤ SA / (12000000001/10^10))
    (hP1 : QB * 100 ≤ PB * (1 - ((2:ℚ)^(53:ℕ))⁻¹))
    (hP2 : PA * (1 + ((2:ℚ)^(53:ℕ))⁻¹) ≤ QA * 100) :
    0 < p ∧ PA ≤ p ∧ p ≤ PB := by
  have hi1 : (0:ℚ) < 1 - ((2:ℚ)^(53:ℕ))⁻¹ := by norm_num
  have hi2 : (0:ℚ) < 1 + ((2:ℚ)^(53:ℕ))⁻¹ := by positivity
  obtain ⟨hc0, hclo, hchi⟩ := FloatNear_bounds 53 (by norm_num) _ _ hc12
  obtain ⟨hs0, hslo, hshi⟩ := FloatNear_bounds 53 (by norm_num) _ _ hs
  obtain ⟨hq0, hqlo, hqhi⟩ := FloatNear_bounds 53 (by norm_num) _ _ hq
  obtain ⟨hp0, hplo, hphi⟩ := FloatNear_bounds 53 (by norm_num) _ _ hp
  have hCA : (11999999999/10^10 : ℚ) ≤ c12 :=
    lit_le_of_mul c12 _ (6/5) _ hi2 hchi (by norm_num)
  have hCB : c12 ≤ (12000000001/10^10 : ℚ) :=
    le_lit_of_mul c12 _ (6/5) _ hi1 hclo (by norm_num)
  have hsub : s ≤ SB := le_lit_of_mul s _ D _ hi1 hslo hDB
  have hslb : SA ≤ s := lit_le_of_mul s _ D _ hi2 hshi hDA
  have hCApos : (0:ℚ) < 11999999999/10^10 := by norm_num
  have hdiv_ub : s / c12 ≤ SB / (11999999999/10^10) :=
    div_le_div₀ (le_of_lt (lt_of_lt_of_le hs0 hsub)) hsub hCApos hCA
  have hdiv_lb : SA / (12000000001/10^10) ≤ s / c12 :=
    div_le_div₀ (le_of_lt hs0) hslb hc0 hCB
  have hqub : q ≤ QB :=
    le_lit_of_mul q _ (s / c12) _ hi1 hqlo (hdiv_ub.trans hQ1)
  have hqlb : QA ≤ q :=
    lit_le_of_mul q _ (s / c12) _ hi2 hqhi (hQ2.trans hdiv_lb)
  have hpub : p ≤ PB := by
    refine le_lit_of_mul p _ (q * 100) _ hi1 hplo ?_
    have : q * 100 ≤ QB * 100 := by nlinarith
    exact this.trans hP1
  have hplb : PA ≤ p := by
    refine lit_le_of_mul p _ (q * 100) _ hi2 hphi ?_
    have : QA * 100 ≤ q * 100 := by nlinarith
    exact hP2.trans this
  exact ⟨hp0, hplb, hpub⟩

/-- A complete machine run of `voltageToPercent` on the exact decimal
input 3.6, returning 49: the `float` nearest 3.6 is
`15099494 / 2^22 = 3.5999999046...`, strictly below 3.6, and the exact
interpolation of that value truncates to 49, not 50.  Each rounded
intermediate is given explicitly with its normalised significand. -/
lemma voltageToPercent_sat36 : voltageToPercent (18/5) 49 := by
  refine ⟨15099494/2^22, 4728779608739021/2^50, 5404319552844595/2^52,
    FloatNear_of 24 22 _ _ 15099494 (by norm_num) (by norm_num) (by norm_num)
      (by norm_num) (by norm_num),
    FloatNear_of 53 50 _ _ 4728779608739021 (by norm_num) (by norm_num) (by norm_num)
      (by norm_num) (by norm_num),
    FloatNear_of 53 52 _ _ 5404319552844595 (by norm_num) (by norm_num) (by norm_num)
      (by norm_num) (by norm_num),
    Or.inr (Or.inr ⟨by norm_num, by norm_num,
      (2516582 * 2^31 : ℚ)/2^53, 9007197823085227/2^54, 7036873299285334/2^47,
      FloatNear_of 53 53 _ _ (2516582 * 2^31) (by norm_num) (by norm_num) (by norm_num)
        (by norm_num) (by norm_num),
      FloatNear_of 53 54 _ _ 9007197823085227 (by norm_num) (by norm_num) (by norm_num)
        (by norm_num) (by norm_num),
      FloatNear_of 53 47 _ _ 7036873299285334 (by norm_num) (by norm_num) (by norm_num)
        (by norm_num) (by norm_num),
      ?_⟩)⟩
  have hf : ⌊(7036873299285334:ℚ)/2^47⌋ = 49 :=
    Int.floor_eq_iff.2 ⟨by norm_num, by norm_num⟩
  rw [hf]
  rfl

/-- Witness for C7 at a concrete non-empty plaintext-looking line. -/
theorem lora_rx_classify_append_witness :
    (loraTaskStep xorCipher ['O', 'K'] loraEntryState).monitorLog
      = [['<', ' ', 'O', 'K', '\n']] ∧
    (loraTaskStep xorCipher ['O', 'K'] loraEntryState).monitorMsgCount = 1 := by
  have h := lora_rx_classify_append xorCipher ['O', 'K'] loraEntryState (by decide)
  exact ⟨by rw [h.2.1]; decide, by rw [h.2.2.1]; decide⟩

/-! ## Claim C8: the battery voltage-to-percent mapping -/

/-- **C8 counterexample.** The claim `voltageToPercent(3.6) = 50` is
false under the machine's float/double semantics: the `float` nearest
3.6 lies strictly below it, so the truncated interpolation yields 49. -/
theorem voltage_claim_false_at_3_6 :
    ¬ (∀ r : Nat, voltageToPercent (18/5) r → r = 50) := by
  intro hclaim
  have h49 := hclaim 49 voltageToPercent_sat36
  exact absurd h49 (by norm_num)

/-- **C8 (amended).** Under IEEE float/double semantics,
`voltageToPercent` returns 49 at input 3.6 and 99 at input 4.2 (the
`float` arguments land just below the breakpoints 3.6 and 4.2), 0 at
3.0, and 100 at 5.0 (clamped, since the rounded argument exceeds the
`double` 4.2). -/
theorem voltage_machine_values :
    (∀ r, voltageToPercent (18/5) r → r = 49) ∧
    (∀ r, voltageToPercent (21/5) r → r = 99) ∧
    (∀ r, voltageToPercent 3 r → r = 0) ∧
    (∀ r, voltageToPercent 5 r → r = 100) := by
  have hi2 : (0:ℚ) < 1 + ((2:ℚ)^(53:ℕ))⁻¹ := by positivity
  have hi1 : (0:ℚ) < 1 - ((2:ℚ)^(53:ℕ))⁻¹ := by norm_num
  have hi24p : (0:ℚ) < 1 + ((2:ℚ)^(24:ℕ))⁻¹ := by positivity
  have hi24m : (0:ℚ) < 1 - ((2:ℚ)^(24:ℕ))⁻¹ := by norm_num
  refine ⟨?_, ?_, ?_, ?_⟩
  · -- input 3.6: result 49
    rintro r ⟨v, c42, c12, hv, hc42, hc12, hbr⟩
    have hvpin : v = (15099494:ℚ) / 2^22 :=
      FloatNear_pin24 22 (by norm_num) 15099494 _ _ hv
        (by norm_num) (by norm_num) (by norm_num) (by norm_num)
    obtain ⟨hc420, hc42lo, hc42hi⟩ := FloatNear_bounds 53 (by norm_num) _ _ hc42
    have hc42lb : (41999999/10^7 : ℚ) ≤ c42 :=
      lit_le_of_mul c42 _ (21/5) _ hi2 hc42hi (by norm_num)
    rcases hbr with ⟨hle, hre⟩ | ⟨_, hle3, hre⟩ | ⟨_, _, s, q, p, hs, hq, hp, hre⟩
    · exfalso
      rw [hvpin] at hle
      have hnum : (15099494:ℚ)/2^22 < 41999999/10^7 := by norm_num
      linarith
    · exfalso
      rw [hvpin] at hle3
      have hnum : (3:ℚ) < 15099494/2^22 := by norm_num
      linarith
    · rw [hvpin] at hs
      obtain ⟨hp0, hplb, hpub⟩ := chase53 c12 s q p ((15099494:ℚ)/2^22 - 3)
        (59999990/10^8) (59999991/10^8) (49999991/10^8) (49999993/10^8)
        (4999999/10^5) (49999994/10^6)
        hc12 hs hq hp
        (by norm_num) (by norm_num) (by norm_num)
        (by norm_num) (by norm_num) (by norm_num) (by norm_num)
      have hfl : ⌊p⌋ = 49 := by
        refine Int.floor_eq_iff.2 ⟨?_, ?_⟩
        · push_cast
          have : (49:ℚ) ≤ 4999999/10^5 := by norm_num
          linarith
        · push_cast
          have : (49999994/10^6 : ℚ) < 49 + 1 := by norm_num
          linarith
      rw [hre, hfl]
      rfl
  · -- input 4.2: result 99
    rintro r ⟨v, c42, c12, hv, hc42, hc12, hbr⟩
    have hvpin : v = (8808038:ℚ) / 2^21 :=
      FloatNear_pin24 21 (by norm_num) 8808038 _ _ hv
        (by norm_num) (by norm_num) (by norm_num) (by norm_num)
    obtain ⟨hc420, hc42lo, hc42hi⟩ := FloatNear_bounds 53 (by norm_num) _ _ hc42
    have hc42lb : (41999999/10^7 : ℚ) ≤ c42 :=
      lit_le_of_mul c42 _ (21/5) _ hi2 hc42hi (by norm_num)
    rcases hbr with ⟨hle, hre⟩ | ⟨_, hle3, hre⟩ | ⟨_, _, s, q, p, hs, hq, hp, hre⟩
    · exfalso
      rw [hvpin] at hle
      have hnum : (8808038:ℚ)/2^21 < 41999999/10^7 := by norm_num
      linarith
    · exfalso
      rw [hvpin] at hle3
      have hnum : (3:ℚ) < 8808038/2^21 := by norm_num
      linarith
    · rw [hvpin] at hs
      obtain ⟨hp0, hplb, hpub⟩ := chase53 c12 s q p ((8808038:ℚ)/2^21 - 3)
        (119999980/10^8) (119999981/10^8) (99999983/10^8) (99999985/10^8)
        (99999982/10^6) (99999987/10^6)
        hc12 hs hq hp
        (by norm_num) (by norm_num) (by norm_num)
        (by norm_num) (by norm_num) (by norm_num) (by norm_num)
      have hfl : ⌊p⌋ = 99 := by
        refine Int.floor_eq_iff.2 ⟨?_, ?_⟩
        · push_cast
          have : (99:ℚ) ≤ 99999982/10^6 := by norm_num
          linarith
        · push_cast
          have : (99999987/10^6 : ℚ) < 99 + 1 := by norm_num
          linarith
      rw [hre, hfl]
      rfl
  · -- input 3.0: result 0
    rintro r ⟨v, c42, c12, hv, hc42, hc12, hbr⟩
    obtain ⟨hv0, hvlo, hvhi⟩ := FloatNear_bounds 24 (by norm_num) _ _ hv
    have hvub : v ≤ (30000002/10^7 : ℚ) :=
      le_lit_of_mul v _ 3 _ hi24m hvlo (by norm_num)
    obtain ⟨hc420, hc42lo, hc42hi⟩ := FloatNear_bounds 53 (by norm_num) _ _ hc42
    have hc42lb : (41999999/10^7 : ℚ) ≤ c42 :=
      lit_le_of_mul c42 _ (21/5) _ hi2 hc42hi (by norm_num)
    rcases hbr with ⟨hle, hre⟩ | ⟨_, _, hre⟩ | ⟨_, h3v, s, q, p, hs, hq, hp, hre⟩
    · exfalso
      have hnum : (30000002/10^7:ℚ) < 41999999/10^7 := by norm_num
      linarith
    · exact hre
    · have hD : v - 3 ≤ (2/10^7 : ℚ) := by linarith
      obtain ⟨hp0, hplb, hpub⟩ := chase53 c12 s q p (v - 3)
        0 (3/10^7) 0 (3/10^7) 0 (4/10^5)
        hc12 hs hq hp
        (by linarith) (by nlinarith [hD]) (by norm_num)
        (by norm_num) (by norm_num) (by norm_num) (by norm_num)
      have hfl : ⌊p⌋ = 0 := by
        refine Int.floor_eq_iff.2 ⟨?_, ?_⟩
        · push_cast
          linarith
        · push_cast
          have : (4/10^5 : ℚ) < 0 + 1 := by norm_num
          linarith
      rw [hre, hfl]
      rfl
  · -- input 5.0: result 100
    rintro r ⟨v, c42, c12, hv, hc42, hc12, hbr⟩
    obtain ⟨hv0, hvlo, hvhi⟩ := FloatNear_bounds 24 (by norm_num) _ _ hv
    have hvlb : (49999990/10^7 : ℚ) ≤ v :=
      lit_le_of_mul v _ 5 _ hi24p hvhi (by norm_num)
    obtain ⟨hc420, hc42lo, hc42hi⟩ := FloatNear_bounds 53 (by norm_num) _ _ hc42
    have hc42ub : c42 ≤ (42000001/10^7 : ℚ) :=
      le_lit_of_mul c42 _ (21/5) _ hi1 hc42lo (by norm_num)
    have hvc : c42 < v := by
      have hnum : (42000001/10^7:ℚ) < 49999990/10^7 := by norm_num
      linarith
    rcases hbr with ⟨_, hre⟩ | ⟨hlt, _, _⟩ | ⟨hlt, _, _, _, _, _, _, _, _⟩
    · exact hre
    · exact absurd hlt (by linarith)
    · exact absurd hlt (by linarith)

/-- Witness for C8 (amended): the concrete machine run at input 3.6
yields 49, and the theorem applies to it. -/
theorem voltage_machine_values_witness :
    voltageToPercent (18/5) 49 ∧ 49 = 49 :=
  ⟨voltageToPercent_sat36, voltage_machine_values.1 49 voltageToPercent_sat36⟩

end LoraESP32
